import Mathlib

/-!
Verification of the DJ-decks audio core: a shallow embedding of the mixer
callback, the deck ring-buffer consumer, track loading, the analyzer
callbacks, the sync-ratio computation, the tempo-ratio clamp and the
TempoMap sample/beat conversions, with theorems checking the specified
properties against the embedded code. Float arithmetic of the source is
modelled with exact rationals; the only irrational quantity (an RMS used
for load normalization) is passed in as a parameter.
-/

namespace DJLite

/-- A stereo frame: left and right sample. The Python ring buffer stores
frames as `[l, r]` pairs (the fill worker extends the deque with
`chunk.tolist()` of an `(N, 2)` array). -/
abbrev Frame : Type := ℚ × ℚ

/-- Hard clip, `np.clip(x, -0.95, 0.95)` in `DJMixer._audio_callback`
(`np.clip` computes `minimum(a_max, maximum(a_min, x))`). -/
def clip (x : ℚ) : ℚ := min 0.95 (max (-0.95) x)

/-- `Deck.pop_audio_chunk`: if the ring holds at least `chunk_size` frames,
pop exactly that many; otherwise return a full block of silence and leave the
ring untouched. The third component records whether the underrun counter was
bumped, which the source does only while `is_playing`. -/
def pop_audio_chunk (ring : List Frame) (chunk_size : ℕ) (is_playing : Bool) :
    List Frame × List Frame × Bool :=
  if chunk_size ≤ ring.length then
    (ring.take chunk_size, ring.drop chunk_size, false)
  else
    (List.replicate chunk_size ((0 : ℚ), (0 : ℚ)), ring, is_playing)

/-- One output sample of `DJMixer._audio_callback`: per-deck gain, then the
linear crossfader weights `mix_a = 1 - (x + 1) * 0.5` and
`mix_b = (x + 1) * 0.5`, then master volume, then the hard clip. -/
def mix_sample (gain_a gain_b master x : ℚ) (a b : ℚ) : ℚ :=
  clip (((gain_a * a) * (1 - (x + 1) * (1/2)) + (gain_b * b) * ((x + 1) * (1/2))) * master)

/-- `mix_sample` applied to both channels of a stereo frame. -/
def mix_frame (gain_a gain_b master x : ℚ) (fa fb : Frame) : Frame :=
  (mix_sample gain_a gain_b master x fa.1 fb.1,
   mix_sample gain_a gain_b master x fa.2 fb.2)

/-- Output block of `DJMixer._audio_callback`: pull a block from each deck's
ring, apply per-deck gain, the linear crossfade, master volume and the clip;
the `except` handler turns any internal failure into a block of silence. -/
def audio_callback (ringA ringB : List Frame) (playingA playingB : Bool)
    (gain_a gain_b crossfader master_volume : ℚ) (frames : ℕ)
    (internal_fail : Bool) : List Frame :=
  if internal_fail then
    List.replicate frames ((0 : ℚ), (0 : ℚ))
  else
    List.zipWith (mix_frame gain_a gain_b master_volume crossfader)
      (pop_audio_chunk ringA frames playingA).1
      (pop_audio_chunk ringB frames playingB).1

/-- Modelled from the spec, for comparison with the code: the per-sample
equal-power mix the claim asserts, with weights
`wA = sqrt (max 0 (1 - max 0 x))` and `wB = sqrt (max 0 (1 + min 0 x))`. -/
noncomputable def specEqualPowerMix (a b ga gb m x : ℝ) : ℝ :=
  (a * ga * Real.sqrt (max 0 (1 - max 0 x)) +
   b * gb * Real.sqrt (max 0 (1 + min 0 x))) * m

/-- `TimeStretchEngine` state relevant to tempo: the stored `tempo_ratio`
(initially `1.0`). -/
structure TimeStretchEngine where
  tempo_ratio : ℚ
deriving DecidableEq

/-- `TimeStretchEngine.set_tempo`: stores `max(0.5, min(2.0, ratio))`. -/
def TimeStretchEngine.set_tempo (e : TimeStretchEngine) (ratio : ℚ) :
    TimeStretchEngine :=
  { e with tempo_ratio := max 0.5 (min 2.0 ratio) }

/-- `TimeStretchEngine.get_tempo`: returns the stored `tempo_ratio`. -/
def TimeStretchEngine.get_tempo (e : TimeStretchEngine) : ℚ := e.tempo_ratio

/-- The tempo-related state of a `Deck`: `rate_target`, `tempo_ratio` and the
deck's `TimeStretchEngine`. -/
structure DeckTempo where
  rate_target : ℚ
  tempo_ratio : ℚ
  engine : TimeStretchEngine
deriving DecidableEq

/-- `Deck.set_tempo` (the later, surviving definition in the class body):
clamps the ratio to `[0.5, 2.0]`, stores it in `rate_target` and
`tempo_ratio`, and forwards it to the engine's `set_tempo`. -/
def deck_set_tempo (d : DeckTempo) (ratio : ℚ) : DeckTempo :=
  let r := max 0.5 (min 2.0 ratio)
  { rate_target := r, tempo_ratio := r, engine := d.engine.set_tempo r }

/-- A tempo mutation: either a direct `TimeStretchEngine.set_tempo` call (as
the PLL and the fill worker issue) or a `Deck.set_tempo` call (as the UI and
the sync ramp issue). -/
inductive TempoCall where
  | engineSet (r : ℚ)
  | deckSet (r : ℚ)

/-- Applies one tempo mutation to the deck's tempo state. -/
def applyTempoCall (d : DeckTempo) : TempoCall → DeckTempo
  | .engineSet r => { d with engine := d.engine.set_tempo r }
  | .deckSet r => deck_set_tempo d r

/-- Deck tempo state at construction: every ratio starts at `1.0`. -/
def initDeckTempo : DeckTempo := ⟨1, 1, ⟨1⟩⟩

/-- `Deck._choose_multiplier`: among `[0.5 * raw, raw, 2.0 * raw]` pick the
candidate closest to `1.0`; Python's `min` keeps the first of equals. -/
def choose_multiplier (ratio_raw : ℚ) : ℚ :=
  let c1 := 0.5 * ratio_raw
  let c2 := ratio_raw
  let c3 := 2.0 * ratio_raw
  if |c1 - 1| ≤ |c2 - 1| ∧ |c1 - 1| ≤ |c3 - 1| then c1
  else if |c2 - 1| ≤ |c3 - 1| then c2
  else c3

/-- `Deck._clamp_ratio`: clamp into the active pitch range `(lo, hi)`. -/
def clamp_ratio (lo hi r : ℚ) : ℚ := max lo (min hi r)

/-- Round half to even, as Python's `round` resolves exact ties. -/
def roundHalfEven (q : ℚ) : ℤ :=
  if q - ⌊q⌋ < 1/2 then ⌊q⌋
  else if 1/2 < q - ⌊q⌋ then ⌊q⌋ + 1
  else if ⌊q⌋ % 2 = 0 then ⌊q⌋ else ⌊q⌋ + 1

/-- Python's `round(x, 3)` on exact rationals. -/
def round3 (q : ℚ) : ℚ := (roundHalfEven (1000 * q) : ℚ) / 1000

/-- `Deck._compute_sync_ratio`: raises `ValueError` (modelled as `none`) when
either BPM is falsy, otherwise forms `raw = other_bpm / my_bmp`, applies the
half/double correction, clamps to the pitch range `(lo, hi)`, reports whether
clamping changed the value, and rounds the result to 3 decimals. -/
def compute_sync_ratio (lo hi : ℚ) (my_bmp other_bpm : ℚ) : Option (ℚ × Bool) :=
  if my_bmp = 0 ∨ other_bpm = 0 then none
  else
    let raw := other_bpm / my_bmp
    let adjusted := choose_multiplier raw
    let clamped := clamp_ratio lo hi adjusted
    let hit_limit := decide (clamped ≠ adjusted)
    some (round3 clamped, hit_limit)

/-- `Deck.sync_to_deck`: raises (modelled as `none`) when either deck's
`detected_bpm` is falsy; otherwise computes the master's playing BPM as
`detected_bpm * effective_ratio` and delegates to `_compute_sync_ratio`. -/
def sync_to_deck (master_bpm master_eff my_bpm lo hi : ℚ) : Option (ℚ × Bool) :=
  if master_bpm = 0 ∨ my_bpm = 0 then none
  else compute_sync_ratio lo hi my_bpm (master_bpm * master_eff)

/-- `TempoSegment`: position in samples, beat index, local BPM, confidence. -/
structure TempoSegment where
  sample_position : ℤ
  beat_index : ℚ
  local_bpm : ℚ
  confidence : ℚ
deriving DecidableEq

/-- `TempoMap`: ordered segments plus sample rate, manual grid offset in
beats and beats per bar. -/
structure TempoMap where
  segments : List TempoSegment
  sample_rate : ℤ
  grid_offset_beats : ℚ
  beats_per_bar : ℤ
deriving DecidableEq

/-- The source's backwards `for i in range(len - 1, -1, -1)` search: the last
element of the list satisfying `p`, if any. -/
def findLastWith (p : TempoSegment → Bool) : List TempoSegment → Option TempoSegment
  | [] => none
  | s :: rest =>
    match findLastWith p rest with
    | some t => some t
    | none => if p s then some s else none

/-- `TempoMap._find_segment_for_sample`: `None` on an empty list, otherwise
the last segment with `sample_position ≤ n`, falling back to the first
segment when none qualifies. -/
def find_segment_for_sample (segs : List TempoSegment) (n : ℤ) :
    Option TempoSegment :=
  match segs with
  | [] => none
  | s0 :: _ =>
    some ((findLastWith (fun s => decide (s.sample_position ≤ n)) segs).getD s0)

/-- `TempoMap._find_segment_for_beat`: `None` on an empty list, otherwise the
last segment with `beat_index ≤ b`, falling back to the first segment. -/
def find_segment_for_beat (segs : List TempoSegment) (b : ℚ) :
    Option TempoSegment :=
  match segs with
  | [] => none
  | s0 :: _ =>
    some ((findLastWith (fun s => decide (s.beat_index ≤ b)) segs).getD s0)

/-- Python's `int()` conversion: truncation toward zero. -/
def pyInt (q : ℚ) : ℤ := if q < 0 then -⌊-q⌋ else ⌊q⌋

/-- `TempoMap.samples_to_beats`: `0` for negative positions or a missing
segment; otherwise beat index of the enclosing segment plus beats elapsed
since its start plus the grid offset, clamped below at `0`. -/
def TempoMap.samples_to_beats (tm : TempoMap) (sample_position : ℤ) : ℚ :=
  if sample_position < 0 then 0
  else
    match find_segment_for_sample tm.segments sample_position with
    | none => 0
    | some seg =>
      max 0 (seg.beat_index +
        ((sample_position : ℚ) - (seg.sample_position : ℚ)) / (tm.sample_rate : ℚ)
          * seg.local_bpm / 60 +
        tm.grid_offset_beats)

/-- `TempoMap.beats_to_samples`: `0` for non-positive beats or when the
offset-adjusted position (`adjusted_beat_position = beat_position -
grid_offset_beats`) is non-positive; otherwise the enclosing segment's
sample position plus `int(seconds * sample_rate)` elapsed samples. -/
def TempoMap.beats_to_samples (tm : TempoMap) (beat_position : ℚ) : ℤ :=
  if beat_position ≤ 0 then 0
  else if beat_position - tm.grid_offset_beats ≤ 0 then 0
  else
    match find_segment_for_beat tm.segments (beat_position - tm.grid_offset_beats) with
    | none => 0
    | some seg =>
      seg.sample_position +
        pyInt ((beat_position - tm.grid_offset_beats - seg.beat_index) * 60
          / seg.local_bpm * (tm.sample_rate : ℚ))

/-- Consistency of a run of segments: positions strictly increase and each
next segment's beat index is the previous one's plus the beats spanned at the
previous segment's local BPM (the shape every analyzer-built map has). -/
def segChainOk (sr : ℤ) : TempoSegment → List TempoSegment → Prop
  | _, [] => True
  | s, t :: rest =>
    s.sample_position < t.sample_position ∧
    t.beat_index = s.beat_index +
      ((t.sample_position : ℚ) - (s.sample_position : ℚ)) * s.local_bpm / (60 * (sr : ℚ)) ∧
    segChainOk sr t rest

/-- `AnalysisResult` from the cache manager, with the fields the deck
callbacks read and write. -/
structure AnalysisResult where
  uid : String
  bmp : Option ℚ
  confidence : Option ℚ
  key_note : Option String
  key_display : Option String
  method : String
deriving DecidableEq

/-- The in-memory `BMP_CACHE`, keyed by UID. -/
abbrev BmpCache : Type := List (String × AnalysisResult)

/-- `store_bmp`: upsert into `BMP_CACHE` only when `result.bmp` is truthy and
positive. -/
def store_bmp (cache : BmpCache) (r : AnalysisResult) : BmpCache :=
  match r.bmp with
  | some v =>
    if 0 < v then (r.uid, r) :: cache.filter (fun p => decide (p.1 ≠ r.uid))
    else cache
  | none => cache

/-- `get_bmp`: look up a result by UID. -/
def get_bmp (cache : BmpCache) (uid : String) : Option AnalysisResult :=
  (cache.find? (fun p => decide (p.1 = uid))).map Prod.snd

/-- Detected-key data as the deck stores it: `(display, note)`. -/
abbrev KeyData : Type := String × Option String

/-- Observable `Deck` state touched by `load_track` and the analyzer
callbacks. Field names follow the Python attributes. -/
structure DeckState where
  audio_data : Option (List Frame)
  sample_rate : ℤ
  channels : ℕ
  path : Option String
  current_uid : Option String
  load_token : ℕ
  detected_bpm : ℚ
  bmp_confidence : Option ℚ
  bpm_status : String
  key_detected : Option KeyData
  key_status : String
  track_path : Option String
  track_name : String
  total_frames : ℕ
  duration : ℚ
  position : ℚ
  is_playing : Bool
  is_paused : Bool
  rate_target : ℚ
  rate_smooth : ℚ
  bpm_target : Option ℚ
  phase : ℚ
  ring_buffer : List Frame
  volume : ℚ
  tempo_ratio : ℚ
  nudge_ratio : ℚ
  pitch_range_key : String
deriving DecidableEq

/-- Scale a frame by a gain factor. -/
def scaleFrame (c : ℚ) (f : Frame) : Frame := (c * f.1, c * f.2)

/-- The mutations `Deck.load_track` performs before the `sf.read` decode:
set `path`, set `current_uid`, increment `load_token`, then fill the BPM
fields from the cache lookup (status `"ok"` on a positive cached BPM, else
reset to `"pending"`) and likewise the key fields. -/
def pre_load_update (d : DeckState) (file_path uid : String)
    (cached : Option AnalysisResult) : DeckState :=
  let d1 := { d with path := some file_path, current_uid := some uid,
                     load_token := d.load_token + 1 }
  let d2 :=
    match cached with
    | some c =>
      match c.bmp with
      | some v =>
        if 0 < v then
          { d1 with detected_bpm := v, bmp_confidence := c.confidence,
                    bpm_status := "ok" }
        else
          { d1 with detected_bpm := 0, bmp_confidence := none,
                    bpm_status := "pending" }
      | none =>
        { d1 with detected_bpm := 0, bmp_confidence := none,
                  bpm_status := "pending" }
    | none =>
      { d1 with detected_bpm := 0, bmp_confidence := none,
                bpm_status := "pending" }
  match cached with
  | some c =>
    match c.key_display with
    | some kd =>
      if kd ≠ "" then
        { d2 with key_detected := some (kd, c.key_note), key_status := "ok" }
      else
        { d2 with key_detected := none, key_status := "pending" }
    | none => { d2 with key_detected := none, key_status := "pending" }
  | none => { d2 with key_detected := none, key_status := "pending" }

/-- `Deck.load_track`. The fallible environment is passed in: `cached` is the
result of the cache consultation, `decode` is the `sf.read` outcome (`none`
models the raised IO/decode error, caught by the `except` which returns
`False`), with the file already duplicated to stereo frames as the source
does for mono input. `rms_positive` and `norm_factor` stand for the
irrational RMS computation: when the RMS is positive the buffer is scaled by
the normalization factor clamped to `[0.1, 10.0]`. The ring buffer is not
touched anywhere in this method. -/
def load_track (d : DeckState) (file_path file_name uid : String)
    (cached : Option AnalysisResult) (decode : Option (List Frame × ℤ))
    (rms_positive : Bool) (norm_factor : ℚ) : DeckState × Bool :=
  let d3 := pre_load_update d file_path uid cached
  match decode with
  | none => (d3, false)
  | some (audio, sr) =>
    let normalized :=
      if rms_positive then audio.map (scaleFrame (max 0.1 (min 10.0 norm_factor)))
      else audio
    ({ d3 with
        audio_data := some normalized,
        sample_rate := sr,
        channels := 2,
        total_frames := audio.length,
        duration := (audio.length : ℚ) / (sr : ℚ),
        track_path := some file_path,
        track_name := file_name,
        position := 0,
        is_playing := false,
        is_paused := false,
        rate_target := 1,
        rate_smooth := 1,
        bpm_target := none,
        phase := 0 }, true)

/-- `Deck.on_bpm_detected`: drop the result when it carries a token that no
longer matches `load_token`; otherwise store the BPM fields on the deck and
upsert the central cache when a UID is set and the BPM is positive. -/
def on_bpm_detected (d : DeckState) (cache : BmpCache) (bpm : ℚ)
    (confidence : Option ℚ) (token : Option ℕ) : DeckState × BmpCache :=
  if token ≠ none ∧ token ≠ some d.load_token then (d, cache)
  else
    let d1 := { d with detected_bpm := bpm, bmp_confidence := confidence,
                       bpm_status := if 0 < bpm then "ok" else "none" }
    let cache1 :=
      match d.current_uid with
      | some u =>
        if 0 < bpm then
          store_bmp cache ⟨u, some bpm, confidence, none, none, "librosa_bpm"⟩
        else cache
      | none => cache
    (d1, cache1)

/-- `Deck.on_key_detected`: drop stale-token results; otherwise store the key
fields and merge the key into any existing cache entry for the UID (the
upsert itself only persists entries that carry a positive BPM). -/
def on_key_detected (d : DeckState) (cache : BmpCache) (key_data : KeyData)
    (token : Option ℕ) : DeckState × BmpCache :=
  if token ≠ none ∧ token ≠ some d.load_token then (d, cache)
  else
    let d1 := { d with key_detected := some key_data, key_status := "ok" }
    let cache1 :=
      match d.current_uid with
      | some u =>
        match get_bmp cache u with
        | some ex =>
          store_bmp cache ⟨u, ex.bmp, ex.confidence, key_data.2, some key_data.1, ex.method⟩
        | none =>
          store_bmp cache ⟨u, none, none, key_data.2, some key_data.1, "key_analysis"⟩
      | none => cache
    (d1, cache1)

/-- A concrete deck that holds a fully loaded, analyzed, playing track; used
as the starting state of the load-failure and load-success scenarios. -/
def sampleDeck : DeckState where
  audio_data := some [(1/2, 1/2)]
  sample_rate := 48000
  channels := 2
  path := some "old.wav"
  current_uid := some "uid-old"
  load_token := 5
  detected_bpm := 120
  bmp_confidence := some 1
  bpm_status := "ok"
  key_detected := some ("8A", some "Am")
  key_status := "ok"
  track_path := some "old.wav"
  track_name := "old.wav"
  total_frames := 1
  duration := 1/48000
  position := 7/2
  is_playing := true
  is_paused := false
  rate_target := 1
  rate_smooth := 1
  bpm_target := none
  phase := 0
  ring_buffer := [(1/3, 1/3)]
  volume := 1
  tempo_ratio := 1
  nudge_ratio := 1
  pitch_range_key := "±8"

/-- A one-segment 120 BPM map at 48 kHz with grid offset -10 beats. -/
def tmNeg : TempoMap := ⟨[⟨0, 0, 120, 1⟩], 48000, -10, 4⟩

/-- A one-segment 120 BPM map at 48 kHz with grid offset +1 beat. -/
def tmPos : TempoMap := ⟨[⟨0, 0, 120, 1⟩], 48000, 1, 4⟩

/-- A consistent two-segment constant-120-BPM map at 48 kHz with grid offset
-1 beat. -/
def tmTwo : TempoMap := ⟨[⟨0, 0, 120, 1⟩, ⟨48000, 2, 120, 1⟩], 48000, -1, 4⟩

/-- A consistent two-segment variable-tempo map (120 then 150 BPM) at
48 kHz. -/
def tmVar : TempoMap := ⟨[⟨0, 0, 120, 1⟩, ⟨48000, 2, 150, 1⟩], 48000, 0, 4⟩

/-! Helper lemmas. -/

theorem clip_le (x : ℚ) : clip x ≤ 0.95 := min_le_left _ _

theorem clip_ge (x : ℚ) : -0.95 ≤ clip x := le_min (by norm_num) (le_max_left _ _)

theorem mem_of_mem_zipWith {α β γ : Type} {f : α → β → γ} {c : γ} :
    ∀ {l1 : List α} {l2 : List β}, c ∈ List.zipWith f l1 l2 → ∃ a b, c = f a b
  | [], _, h => by simp at h
  | _ :: _, [], h => by simp at h
  | a :: l1, b :: l2, h => by
    rcases List.mem_cons.mp h with h | h
    · exact ⟨a, b, h⟩
    · exact mem_of_mem_zipWith h

theorem applyTempoCall_range (d : DeckTempo) (c : TempoCall)
    (h : (0.5 ≤ d.engine.tempo_ratio ∧ d.engine.tempo_ratio ≤ 2) ∧
      (0.5 ≤ d.tempo_ratio ∧ d.tempo_ratio ≤ 2)) :
    (0.5 ≤ (applyTempoCall d c).engine.tempo_ratio ∧
        (applyTempoCall d c).engine.tempo_ratio ≤ 2) ∧
      (0.5 ≤ (applyTempoCall d c).tempo_ratio ∧
        (applyTempoCall d c).tempo_ratio ≤ 2) := by
  cases c with
  | engineSet r =>
    refine ⟨⟨?_, ?_⟩, h.2⟩ <;>
      simp only [applyTempoCall, TimeStretchEngine.set_tempo]
    · exact le_max_left _ _
    · exact max_le (by norm_num) ((min_le_left _ _).trans (by norm_num))
  | deckSet r =>
    refine ⟨⟨?_, ?_⟩, ?_, ?_⟩ <;>
      simp only [applyTempoCall, deck_set_tempo, TimeStretchEngine.set_tempo]
    · exact le_max_left _ _
    · exact max_le (by norm_num) ((min_le_left _ _).trans (by norm_num))
    · exact le_max_left _ _
    · exact max_le (by norm_num) ((min_le_left _ _).trans (by norm_num))

/-! Theorems for the claims. -/

/-- C2: every sample the mixer audio callback writes lies in [-0.95, 0.95],
for every ring-buffer state, deck gain, crossfader position and
master-volume setting, and the internal-failure path produces silence for
the whole block. -/
theorem mixer_limiter_invariant (ringA ringB : List Frame) (pa pb : Bool)
    (ga gb x m : ℚ) (frames : ℕ) (fail : Bool) (fr : Frame)
    (hmem : fr ∈ audio_callback ringA ringB pa pb ga gb x m frames fail) :
    (-0.95 ≤ fr.1 ∧ fr.1 ≤ 0.95 ∧ -0.95 ≤ fr.2 ∧ fr.2 ≤ 0.95) ∧
      audio_callback ringA ringB pa pb ga gb x m frames true =
        List.replicate frames ((0 : ℚ), (0 : ℚ)) := by
  refine ⟨?_, by simp [audio_callback]⟩
  unfold audio_callback at hmem
  split at hmem
  · have h0 : fr = ((0 : ℚ), (0 : ℚ)) := List.eq_of_mem_replicate hmem
    subst h0
    norm_num
  · obtain ⟨fa, fb, rfl⟩ := mem_of_mem_zipWith hmem
    exact ⟨clip_ge _, clip_le _, clip_ge _, clip_le _⟩

/-- C2 witness: a concrete callback block containing the frame (0, 0). -/
theorem mixer_limiter_invariant_witness :
    ((0 : ℚ), (0 : ℚ)) ∈ audio_callback [] [] true true 1 1 0 (4/5) 2 false ∧
      ((-0.95 ≤ (((0 : ℚ), (0 : ℚ)) : Frame).1 ∧
          (((0 : ℚ), (0 : ℚ)) : Frame).1 ≤ 0.95 ∧
          -0.95 ≤ (((0 : ℚ), (0 : ℚ)) : Frame).2 ∧
          (((0 : ℚ), (0 : ℚ)) : Frame).2 ≤ 0.95) ∧
        audio_callback [] [] true true 1 1 0 (4/5) 2 true =
          List.replicate 2 ((0 : ℚ), (0 : ℚ))) :=
  ⟨by norm_num [audio_callback, pop_audio_chunk, mix_frame, mix_sample, clip,
      max_def, min_def, List.replicate],
   mixer_limiter_invariant [] [] true true 1 1 0 (4/5) 2 false
     ((0 : ℚ), (0 : ℚ))
     (by norm_num [audio_callback, pop_audio_chunk, mix_frame, mix_sample,
        clip, max_def, min_def, List.replicate])⟩

/-- C1 counterexample: at crossfader 0 with unit gains and master volume, the
callback halves each deck's contribution (linear crossfade) instead of
applying the claimed equal-power weights, and the claimed weights do not
satisfy wA^2 + wB^2 = 1 at x = 0. -/
theorem mixer_equal_power_counterexample :
    (((audio_callback [((1 : ℚ)/2, 1/2)] [(0, 0)] true true 1 1 0 1 1
          false).headI.1 : ℚ) : ℝ) ≠ specEqualPowerMix (1/2) 0 1 1 1 0 ∧
      Real.sqrt (max 0 (1 - max 0 (0 : ℝ))) ^ 2 +
        Real.sqrt (max 0 (1 + min 0 (0 : ℝ))) ^ 2 ≠ 1 := by
  have hmax : max (0 : ℝ) (1 - max 0 (0 : ℝ)) = 1 := by norm_num
  have hmin : max (0 : ℝ) (1 + min 0 (0 : ℝ)) = 1 := by norm_num
  constructor
  · have h : (audio_callback [((1 : ℚ)/2, 1/2)] [(0, 0)] true true 1 1 0 1 1
        false).headI.1 = (1/4 : ℚ) := by
      norm_num [audio_callback, pop_audio_chunk, mix_frame, mix_sample, clip,
        max_def, min_def, List.replicate]
    rw [h]
    unfold specEqualPowerMix
    rw [hmax, hmin, Real.sqrt_one]
    norm_num
  · rw [hmax, hmin, Real.sqrt_one]
    norm_num

/-- C1 (amended): the callback applies a LINEAR crossfade: every output
sample is clip ((gain_a * a * (1 - x)/2 + gain_b * b * (1 + x)/2) * master),
and the linear weights sum to 1 for every crossfader position
(constant-gain, not equal-power). -/
theorem mixer_linear_crossfade (ringA ringB : List Frame) (pa pb : Bool)
    (ga gb x m : ℚ) (frames : ℕ) :
    audio_callback ringA ringB pa pb ga gb x m frames false =
      List.zipWith (fun fa fb : Frame =>
          (clip ((ga * fa.1 * ((1 - x) / 2) + gb * fb.1 * ((1 + x) / 2)) * m),
           clip ((ga * fa.2 * ((1 - x) / 2) + gb * fb.2 * ((1 + x) / 2)) * m)))
        (pop_audio_chunk ringA frames pa).1
        (pop_audio_chunk ringB frames pb).1 ∧
      (1 - x) / 2 + (1 + x) / 2 = 1 := by
  constructor
  · unfold audio_callback
    rw [if_neg (by simp)]
    congr 1
    funext fa fb
    unfold mix_frame mix_sample
    refine Prod.ext ?_ ?_ <;> · dsimp only; congr 1; ring
  · ring

/-- C9 counterexample: with one frame in the ring and two frames requested,
the code returns a full block of silence, discards the available frame
(leaving it in the ring), rather than the frame followed by one zero
frame. -/
theorem pop_partial_fill_counterexample :
    (pop_audio_chunk [((1 : ℚ)/2, 1/2)] 2 true).1 = [(0, 0), (0, 0)] ∧
      (pop_audio_chunk [((1 : ℚ)/2, 1/2)] 2 true).1 ≠ [((1 : ℚ)/2, 1/2), (0, 0)] ∧
      (pop_audio_chunk [((1 : ℚ)/2, 1/2)] 2 true).2.1 = [((1 : ℚ)/2, 1/2)] := by
  norm_num [pop_audio_chunk, List.replicate, Prod.ext_iff]

/-- C9 (amended): when the ring holds fewer frames than requested, the whole
returned block is silence, the ring is left unconsumed, and the underrun is
counted exactly when the deck is playing. -/
theorem pop_underrun_silence (ring : List Frame) (n : ℕ) (playing : Bool)
    (h : ring.length < n) :
    pop_audio_chunk ring n playing =
      (List.replicate n ((0 : ℚ), (0 : ℚ)), ring, playing) := by
  unfold pop_audio_chunk
  rw [if_neg (by omega)]

/-- C9 witness: a one-frame ring asked for two frames. -/
theorem pop_underrun_silence_witness :
    ([((1 : ℚ)/2, (1 : ℚ)/2)] : List Frame).length < 2 ∧
      pop_audio_chunk [((1 : ℚ)/2, (1 : ℚ)/2)] 2 true =
        (List.replicate 2 ((0 : ℚ), (0 : ℚ)), [((1 : ℚ)/2, (1 : ℚ)/2)], true) :=
  ⟨by norm_num, pop_underrun_silence _ 2 true (by norm_num)⟩

/-- C8: a BPM or key analyzer callback that carries a load token different
from the deck's current one changes neither the deck's BPM/key fields nor
the analysis cache. -/
theorem stale_token_dropped (d : DeckState) (cache : BmpCache) (bpm : ℚ)
    (conf : Option ℚ) (kd : KeyData) (t : ℕ) (h : t ≠ d.load_token) :
    on_bpm_detected d cache bpm conf (some t) = (d, cache) ∧
      on_key_detected d cache kd (some t) = (d, cache) := by
  constructor
  · unfold on_bpm_detected
    rw [if_pos ⟨by simp, by simpa using h⟩]
  · unfold on_key_detected
    rw [if_pos ⟨by simp, by simpa using h⟩]

/-- C8 witness: a stale token 3 against a deck whose current token is 5. -/
theorem stale_token_dropped_witness :
    (3 ≠ sampleDeck.load_token) ∧
      (on_bpm_detected sampleDeck [] 128 (some (9/10)) (some 3) =
          (sampleDeck, []) ∧
        on_key_detected sampleDeck [] ("9A", some "Em") (some 3) =
          (sampleDeck, [])) :=
  ⟨by decide,
   stale_token_dropped sampleDeck [] 128 (some (9/10)) ("9A", some "Em") 3
     (by decide)⟩

/-- C10: starting from construction, after any sequence of
`TimeStretchEngine.set_tempo` or `Deck.set_tempo` calls with arbitrary
arguments, the engine tempo ratio returned by `get_tempo` (and the deck's
stored `tempo_ratio`) lies in [0.5, 2.0]. -/
theorem tempo_ratio_clamped (calls : List TempoCall) :
    0.5 ≤ (calls.foldl applyTempoCall initDeckTempo).engine.get_tempo ∧
      (calls.foldl applyTempoCall initDeckTempo).engine.get_tempo ≤ 2 ∧
      0.5 ≤ (calls.foldl applyTempoCall initDeckTempo).tempo_ratio ∧
      (calls.foldl applyTempoCall initDeckTempo).tempo_ratio ≤ 2 := by
  have main : ∀ (l : List TempoCall) (d : DeckTempo),
      ((0.5 ≤ d.engine.tempo_ratio ∧ d.engine.tempo_ratio ≤ 2) ∧
        (0.5 ≤ d.tempo_ratio ∧ d.tempo_ratio ≤ 2)) →
      ((0.5 ≤ (l.foldl applyTempoCall d).engine.tempo_ratio ∧
          (l.foldl applyTempoCall d).engine.tempo_ratio ≤ 2) ∧
        (0.5 ≤ (l.foldl applyTempoCall d).tempo_ratio ∧
          (l.foldl applyTempoCall d).tempo_ratio ≤ 2)) := by
    intro l
    induction l with
    | nil => intro d h; simpa using h
    | cons c rest ih =>
      intro d h
      exact ih _ (applyTempoCall_range d c h)
  have h := main calls initDeckTempo (by norm_num [initDeckTempo])
  exact ⟨h.1.1, h.1.2, h.2.1, h.2.2⟩

theorem clamp_ratio_ge (lo hi r : ℚ) : lo ≤ clamp_ratio lo hi r :=
  le_max_left _ _

theorem clamp_ratio_le (lo hi r : ℚ) (h : lo ≤ hi) : clamp_ratio lo hi r ≤ hi :=
  max_le h (min_le_left _ _)

theorem clamp_ratio_eq_iff (lo hi r : ℚ) (h : lo ≤ hi) :
    clamp_ratio lo hi r = r ↔ lo ≤ r ∧ r ≤ hi := by
  constructor
  · intro he
    exact ⟨he ▸ clamp_ratio_ge lo hi r, he ▸ clamp_ratio_le lo hi r h⟩
  · rintro ⟨h1, h2⟩
    unfold clamp_ratio
    rw [min_eq_right h2, max_eq_right h1]

theorem roundHalfEven_bounds (y : ℚ) :
    ⌊y⌋ ≤ roundHalfEven y ∧ roundHalfEven y ≤ ⌈y⌉ := by
  have hlt : ¬(y - ⌊y⌋ < 1/2) → (⌊y⌋ : ℚ) < y := by
    intro h
    have h0 : (0 : ℚ) < 1/2 := by norm_num
    nlinarith [Int.floor_le y]
  unfold roundHalfEven
  split_ifs with h1 h2 h3
  · exact ⟨le_refl _, Int.floor_le_ceil y⟩
  · exact ⟨by omega, Int.add_one_le_iff.mpr (Int.lt_ceil.mpr (hlt h1))⟩
  · exact ⟨le_refl _, Int.floor_le_ceil y⟩
  · exact ⟨by omega, Int.add_one_le_iff.mpr (Int.lt_ceil.mpr (hlt h1))⟩

theorem roundHalfEven_mem (a b : ℤ) (y : ℚ) (h1 : (a : ℚ) ≤ y)
    (h2 : y ≤ (b : ℚ)) : a ≤ roundHalfEven y ∧ roundHalfEven y ≤ b :=
  ⟨le_trans (Int.le_floor.mpr h1) (roundHalfEven_bounds y).1,
   le_trans (roundHalfEven_bounds y).2 (Int.ceil_le.mpr h2)⟩

theorem round3_mem (a b : ℤ) (q : ℚ) (h1 : (a : ℚ) / 1000 ≤ q)
    (h2 : q ≤ (b : ℚ) / 1000) :
    (a : ℚ) / 1000 ≤ round3 q ∧ round3 q ≤ (b : ℚ) / 1000 := by
  have h1000 : (0 : ℚ) < 1000 := by norm_num
  have ha : (a : ℚ) ≤ 1000 * q := by
    rw [div_le_iff₀ h1000] at h1
    linarith
  have hb : 1000 * q ≤ (b : ℚ) := by
    rw [le_div_iff₀ h1000] at h2
    linarith
  obtain ⟨hr1, hr2⟩ := roundHalfEven_mem a b (1000 * q) ha hb
  unfold round3
  constructor
  · exact (div_le_div_iff_of_pos_right h1000).mpr (by exact_mod_cast hr1)
  · exact (div_le_div_iff_of_pos_right h1000).mpr (by exact_mod_cast hr2)

theorem choose_multiplier_min (raw : ℚ) :
    ∀ c ∈ [0.5 * raw, raw, 2.0 * raw],
      |choose_multiplier raw - 1| ≤ |c - 1| := by
  intro c hc
  simp only [List.mem_cons, List.not_mem_nil, or_false] at hc
  unfold choose_multiplier
  dsimp only
  split_ifs with h1 h2
  · rcases hc with rfl | rfl | rfl
    · exact le_refl _
    · exact h1.1
    · exact h1.2
  · push_neg at h1
    rcases hc with rfl | rfl | rfl
    · rcases le_or_lt |0.5 * raw - 1| |raw - 1| with hle | hgt
      · exact le_of_lt (lt_of_le_of_lt h2 (h1 hle))
      · exact le_of_lt hgt
    · exact le_refl _
    · exact h2
  · push_neg at h1 h2
    rcases hc with rfl | rfl | rfl
    · rcases le_or_lt |0.5 * raw - 1| |raw - 1| with hle | hgt
      · exact le_of_lt (h1 hle)
      · exact le_of_lt (lt_trans h2 hgt)
    · exact le_of_lt h2
    · exact le_refl _

/-- C3 counterexample: master at 60 effective BPM, slave at 100 BPM, pitch
range [0.5, 1.5]: the code applies ratio 1.2 (the half/double candidate
closest to 1.0), which does not minimize |M - S*r| — the candidate
r = M/S = 0.6 makes it zero. -/
theorem sync_minimize_counterexample :
    sync_to_deck 60 1 100 (1/2) (3/2) = some (6/5, false) ∧
      ¬(∀ c ∈ [0.5 * ((60 : ℚ) * 1 / 100), (60 : ℚ) * 1 / 100,
               2.0 * ((60 : ℚ) * 1 / 100)],
          |(60 : ℚ) - 100 * (6/5)| ≤ |(60 : ℚ) - 100 * c|) := by
  constructor
  · norm_num [sync_to_deck, compute_sync_ratio, choose_multiplier, clamp_ratio,
      round3, roundHalfEven, max_def, min_def, abs]
  · intro h
    have hm := h ((60 : ℚ) * 1 / 100) (by simp)
    norm_num [abs, max_def] at hm

/-- C3 (amended): with both BPMs positive, `sync_to_deck` returns the
half/double candidate minimizing |r - 1| (not |M - S*r|), clamped into the
active pitch range and rounded to the nearest 0.001, and the hit-limit flag
is true exactly when clamping changed the unrounded candidate. -/
theorem sync_ratio_spec (master_bpm master_eff my_bpm : ℚ) (a b : ℤ)
    (lo hi : ℚ) (hM : 0 < master_bpm) (hE : 0 < master_eff) (hS : 0 < my_bpm)
    (hlo : lo = (a : ℚ) / 1000) (hhi : hi = (b : ℚ) / 1000) (hlh : lo ≤ hi) :
    ∃ r hit, sync_to_deck master_bpm master_eff my_bpm lo hi = some (r, hit) ∧
      lo ≤ r ∧ r ≤ hi ∧
      (hit = true ↔
        ¬(lo ≤ choose_multiplier (master_bpm * master_eff / my_bpm) ∧
          choose_multiplier (master_bpm * master_eff / my_bpm) ≤ hi)) ∧
      (∀ c ∈ [0.5 * (master_bpm * master_eff / my_bpm),
              master_bpm * master_eff / my_bpm,
              2.0 * (master_bpm * master_eff / my_bpm)],
        |choose_multiplier (master_bpm * master_eff / my_bpm) - 1| ≤ |c - 1|) := by
  have hMne : master_bpm ≠ 0 := ne_of_gt hM
  have hSne : my_bpm ≠ 0 := ne_of_gt hS
  have hOne : master_bpm * master_eff ≠ 0 := ne_of_gt (mul_pos hM hE)
  refine ⟨round3 (clamp_ratio lo hi
      (choose_multiplier (master_bpm * master_eff / my_bpm))),
    decide (clamp_ratio lo hi
        (choose_multiplier (master_bpm * master_eff / my_bpm)) ≠
      choose_multiplier (master_bpm * master_eff / my_bpm)), ?_, ?_, ?_, ?_,
    choose_multiplier_min _⟩
  · unfold sync_to_deck compute_sync_ratio
    rw [if_neg (by push_neg; exact ⟨hMne, hSne⟩),
      if_neg (by push_neg; exact ⟨hSne, hOne⟩)]
  · subst hlo hhi
    exact (round3_mem a b _ (clamp_ratio_ge _ _ _)
      (clamp_ratio_le _ _ _ hlh)).1
  · subst hlo hhi
    exact (round3_mem a b _ (clamp_ratio_ge _ _ _)
      (clamp_ratio_le _ _ _ hlh)).2
  · rw [decide_eq_true_iff]
    exact not_iff_not.mpr (clamp_ratio_eq_iff lo hi _ hlh)

/-- C3 witness: master 120 BPM at unit effective ratio, slave 100 BPM, pitch
range ±8 percent. -/
theorem sync_ratio_spec_witness :
    ((0 : ℚ) < 120 ∧ (0 : ℚ) < 1 ∧ (0 : ℚ) < 100 ∧
        (23/25 : ℚ) = ((920 : ℤ) : ℚ) / 1000 ∧
        (27/25 : ℚ) = ((1080 : ℤ) : ℚ) / 1000 ∧ (23/25 : ℚ) ≤ 27/25) ∧
      (∃ r hit, sync_to_deck 120 1 100 (23/25) (27/25) = some (r, hit) ∧
        (23/25 : ℚ) ≤ r ∧ r ≤ 27/25 ∧
        (hit = true ↔
          ¬((23/25 : ℚ) ≤ choose_multiplier (120 * 1 / 100) ∧
            choose_multiplier (120 * 1 / 100) ≤ 27/25)) ∧
        (∀ c ∈ [0.5 * ((120 : ℚ) * 1 / 100), (120 : ℚ) * 1 / 100,
                2.0 * ((120 : ℚ) * 1 / 100)],
          |choose_multiplier ((120 : ℚ) * 1 / 100) - 1| ≤ |c - 1|)) :=
  ⟨⟨by norm_num, by norm_num, by norm_num, by norm_num, by norm_num,
     by norm_num⟩,
   sync_ratio_spec 120 1 100 920 1080 (23/25) (27/25) (by norm_num)
     (by norm_num) (by norm_num) (by norm_num) (by norm_num) (by norm_num)⟩

theorem pre_load_update_eq (d : DeckState) (p u : String)
    (cached : Option AnalysisResult) :
    ∃ bpmv conf bst kdet kst,
      pre_load_update d p u cached =
        { d with path := some p, current_uid := some u,
                 load_token := d.load_token + 1,
                 detected_bpm := bpmv, bmp_confidence := conf,
                 bpm_status := bst, key_detected := kdet, key_status := kst } := by
  unfold pre_load_update
  rcases cached with _ | c
  · exact ⟨_, _, _, _, _, rfl⟩
  · rcases c with ⟨cu, cb, cc, ckn, ckd, cm⟩
    rcases cb with _ | v <;> rcases ckd with _ | s <;> dsimp only
    · exact ⟨_, _, _, _, _, rfl⟩
    · by_cases hs : s ≠ ""
      · rw [if_pos hs]
        exact ⟨_, _, _, _, _, rfl⟩
      · rw [if_neg hs]
        exact ⟨_, _, _, _, _, rfl⟩
    · by_cases hv : 0 < v
      · rw [if_pos hv]
        exact ⟨_, _, _, _, _, rfl⟩
      · rw [if_neg hv]
        exact ⟨_, _, _, _, _, rfl⟩
    · by_cases hv : 0 < v <;> by_cases hs : s ≠ ""
      · rw [if_pos hv, if_pos hs]
        exact ⟨_, _, _, _, _, rfl⟩
      · rw [if_pos hv, if_neg hs]
        exact ⟨_, _, _, _, _, rfl⟩
      · rw [if_neg hv, if_pos hs]
        exact ⟨_, _, _, _, _, rfl⟩
      · rw [if_neg hv, if_neg hs]
        exact ⟨_, _, _, _, _, rfl⟩

/-- C4 counterexample: a failed load (decode error) on a deck holding a fully
loaded track does not leave the deck in its prior state — the load token has
already been incremented (5 to 6) before the decode ran. -/
theorem load_failure_counterexample :
    (load_track sampleDeck "new.wav" "new.wav" "uid-new" none none true 1).2
        = false ∧
      (load_track sampleDeck "new.wav" "new.wav" "uid-new" none none true 1).1
        ≠ sampleDeck ∧
      (load_track sampleDeck "new.wav" "new.wav" "uid-new" none none
          true 1).1.load_token = 6 ∧
      sampleDeck.load_token = 5 := by
  refine ⟨rfl, ?_, rfl, rfl⟩
  intro h
  have h2 := congrArg DeckState.load_token h
  simp [load_track, pre_load_update, sampleDeck] at h2

/-- C4 (amended): when the decode fails, `load_track` returns failure and the
deck equals its prior state with exactly `path`, `current_uid`, the
incremented `load_token`, and the BPM/key fields replaced (those were updated
before the decode); the audio buffer, transport and ring state are
untouched. -/
theorem load_failure_partial_state (d : DeckState) (p nm u : String)
    (cached : Option AnalysisResult) (rp : Bool) (nf : ℚ) :
    (load_track d p nm u cached none rp nf).2 = false ∧
      ∃ bpmv conf bst kdet kst,
        (load_track d p nm u cached none rp nf).1 =
          { d with path := some p, current_uid := some u,
                   load_token := d.load_token + 1,
                   detected_bpm := bpmv, bmp_confidence := conf,
                   bpm_status := bst, key_detected := kdet,
                   key_status := kst } :=
  ⟨rfl, pre_load_update_eq d p u cached⟩

/-- C5 counterexample: a successful load on a deck whose ring buffer holds a
frame leaves the ring non-empty — `load_track` never clears it. -/
theorem load_success_ring_counterexample :
    (load_track sampleDeck "new.wav" "new.wav" "uid-new" none
        (some ([((1 : ℚ)/2, 1/2)], 48000)) true 1).2 = true ∧
      (load_track sampleDeck "new.wav" "new.wav" "uid-new" none
          (some ([((1 : ℚ)/2, 1/2)], 48000)) true 1).1.ring_buffer =
        [((1 : ℚ)/3, 1/3)] ∧
      (load_track sampleDeck "new.wav" "new.wav" "uid-new" none
          (some ([((1 : ℚ)/2, 1/2)], 48000)) true 1).1.ring_buffer ≠ [] := by
  refine ⟨rfl, rfl, ?_⟩
  have h : (load_track sampleDeck "new.wav" "new.wav" "uid-new" none
      (some ([((1 : ℚ)/2, 1/2)], 48000)) true 1).1.ring_buffer =
        [((1 : ℚ)/3, 1/3)] := rfl
  rw [h]
  simp

/-- C5 (amended): after a successful `load_track` the playback position is 0,
but the ring buffer is exactly what it was before the load (it is not
cleared). -/
theorem load_success_position_zero (d : DeckState) (p nm u : String)
    (cached : Option AnalysisResult) (audio : List Frame) (sr : ℤ)
    (rp : Bool) (nf : ℚ) :
    (load_track d p nm u cached (some (audio, sr)) rp nf).2 = true ∧
      (load_track d p nm u cached (some (audio, sr)) rp nf).1.position = 0 ∧
      (load_track d p nm u cached (some (audio, sr)) rp nf).1.ring_buffer =
        d.ring_buffer := by
  refine ⟨rfl, rfl, ?_⟩
  show (pre_load_update d p u cached).ring_buffer = d.ring_buffer
  obtain ⟨bpmv, conf, bst, kdet, kst, heq⟩ := pre_load_update_eq d p u cached
  rw [heq]

theorem findLastWith_mem (p : TempoSegment → Bool) :
    ∀ (l : List TempoSegment) (t : TempoSegment),
      findLastWith p l = some t → t ∈ l
  | [], t, h => by simp [findLastWith] at h
  | s :: rest, t, h => by
    unfold findLastWith at h
    cases hr : findLastWith p rest with
    | some u =>
      rw [hr] at h
      injection h with h
      exact h ▸ List.mem_cons_of_mem _ (findLastWith_mem p rest u hr)
    | none =>
      rw [hr] at h
      split_ifs at h with hp
      · injection h with h
        exact h ▸ List.mem_cons_self _ _

theorem findLastWith_eq_none (p : TempoSegment → Bool) :
    ∀ (l : List TempoSegment), findLastWith p l = none →
      ∀ s ∈ l, p s = false
  | [], _, s, hs => by simp at hs
  | a :: rest, h, s, hs => by
    unfold findLastWith at h
    cases hr : findLastWith p rest with
    | some u => rw [hr] at h; exact absurd h (by simp)
    | none =>
      rw [hr] at h
      split_ifs at h with hp
      rcases List.mem_cons.mp hs with rfl | hs'
      · exact Bool.eq_false_iff.mpr hp
      · exact findLastWith_eq_none p rest hr s hs'

theorem findLastWith_none_of_all (p : TempoSegment → Bool) :
    ∀ (l : List TempoSegment), (∀ s ∈ l, p s = false) →
      findLastWith p l = none
  | [], _ => rfl
  | a :: rest, h => by
    unfold findLastWith
    rw [findLastWith_none_of_all p rest (fun s hs => h s (List.mem_cons_of_mem _ hs))]
    simp [h a (List.mem_cons_self _ _)]

theorem findLastWith_append (p : TempoSegment → Bool) :
    ∀ (l1 : List TempoSegment) (t : TempoSegment) (l2 : List TempoSegment),
      p t = true → (∀ s ∈ l2, p s = false) →
      findLastWith p (l1 ++ t :: l2) = some t
  | [], t, l2, hpt, h2 => by
    rw [List.nil_append]
    unfold findLastWith
    rw [findLastWith_none_of_all p l2 h2]
    simp [hpt]
  | a :: l1', t, l2, hpt, h2 => by
    rw [List.cons_append]
    unfold findLastWith
    rw [findLastWith_append p l1' t l2 hpt h2]

theorem find_segment_for_sample_mem (segs : List TempoSegment) (n : ℤ)
    (seg : TempoSegment) (h : find_segment_for_sample segs n = some seg) :
    seg ∈ segs := by
  unfold find_segment_for_sample at h
  cases segs with
  | nil => exact absurd h (by simp)
  | cons s0 rest =>
    injection h with h
    cases hf : findLastWith (fun s => decide (s.sample_position ≤ n)) (s0 :: rest) with
    | some t =>
      rw [hf] at h
      exact (by simpa using h : t = seg) ▸ findLastWith_mem _ _ _ hf
    | none =>
      rw [hf] at h
      exact (by simpa using h : s0 = seg) ▸ List.mem_cons_self _ _

/-- C6 counterexample: for the constant-120-BPM map at 48 kHz with grid
offset -10 beats, `samples_to_beats 0` is 0 (the code clamps at zero), not
the claimed exact value -10. -/
theorem samples_to_beats_clamp_counterexample :
    tmNeg.samples_to_beats 0 = 0 ∧
      (0 : ℚ) * 120 / (60 * (48000 : ℚ)) + (-10) = -10 ∧
      tmNeg.samples_to_beats 0 ≠
        (0 : ℚ) * 120 / (60 * (48000 : ℚ)) + (-10) := by
  refine ⟨?_, by norm_num, ?_⟩ <;>
    norm_num [TempoMap.samples_to_beats, tmNeg, find_segment_for_sample,
      findLastWith, max_def]

/-- C6 (amended): for a TempoMap whose segments all carry BPM B with beat
indices consistent with B (as every constructor-built constant-BPM map has),
`samples_to_beats n` equals n * B / (60 * sample_rate) + grid_offset_beats
clamped below at 0, for every n ≥ 0. -/
theorem samples_to_beats_const (tm : TempoMap) (B : ℚ) (n : ℤ)
    (hne : tm.segments ≠ [])
    (hcons : ∀ s ∈ tm.segments, s.local_bpm = B ∧
      s.beat_index * (60 * (tm.sample_rate : ℚ)) = (s.sample_position : ℚ) * B)
    (hsr : 0 < tm.sample_rate) (hn : 0 ≤ n) :
    tm.samples_to_beats n =
      max 0 ((n : ℚ) * B / (60 * (tm.sample_rate : ℚ)) +
        tm.grid_offset_beats) := by
  have hsrQ : (0 : ℚ) < (tm.sample_rate : ℚ) := by exact_mod_cast hsr
  unfold TempoMap.samples_to_beats
  rw [if_neg (by omega)]
  cases hfind : find_segment_for_sample tm.segments n with
  | none =>
    exfalso
    unfold find_segment_for_sample at hfind
    cases hsegs : tm.segments with
    | nil => exact hne hsegs
    | cons s0 rest => rw [hsegs] at hfind; exact absurd hfind (by simp)
  | some seg =>
    have hmem : seg ∈ tm.segments := find_segment_for_sample_mem _ _ _ hfind
    obtain ⟨hB, hbeat⟩ := hcons seg hmem
    have hbeq : seg.beat_index =
        (seg.sample_position : ℚ) * B / (60 * (tm.sample_rate : ℚ)) :=
      (eq_div_iff (by positivity)).mpr hbeat
    dsimp only
    congr 1
    rw [hB, hbeq]
    field_simp
    ring

/-- C6 witness: the two-segment consistent 120 BPM map with offset -1 at
n = 72000. -/
theorem samples_to_beats_const_witness :
    (tmTwo.segments ≠ [] ∧
        (∀ s ∈ tmTwo.segments, s.local_bpm = 120 ∧
          s.beat_index * (60 * (tmTwo.sample_rate : ℚ)) =
            (s.sample_position : ℚ) * 120) ∧
        (0 : ℤ) < tmTwo.sample_rate ∧ (0 : ℤ) ≤ 72000) ∧
      tmTwo.samples_to_beats 72000 =
        max 0 ((72000 : ℚ) * 120 / (60 * (tmTwo.sample_rate : ℚ)) +
          tmTwo.grid_offset_beats) :=
  ⟨⟨by simp [tmTwo], by
      intro s hs
      simp only [tmTwo, List.mem_cons, List.not_mem_nil, or_false] at hs
      rcases hs with rfl | rfl <;> norm_num [tmTwo],
    by norm_num [tmTwo], by norm_num⟩,
   samples_to_beats_const tmTwo 120 72000 (by simp [tmTwo])
     (by
       intro s hs
       simp only [tmTwo, List.mem_cons, List.not_mem_nil, or_false] at hs
       rcases hs with rfl | rfl <;> norm_num [tmTwo])
     (by norm_num [tmTwo]) (by norm_num)⟩

theorem findLastWith_split (p : TempoSegment → Bool) :
    ∀ (l : List TempoSegment) (t : TempoSegment), findLastWith p l = some t →
      ∃ l1 l2, l = l1 ++ t :: l2 ∧ p t = true ∧ ∀ s ∈ l2, p s = false
  | [], t, h => by simp [findLastWith] at h
  | a :: rest, t, h => by
    unfold findLastWith at h
    cases hr : findLastWith p rest with
    | some u =>
      rw [hr] at h
      injection h with h
      subst h
      rcases findLastWith_split p rest u hr with ⟨l1, l2, heq, hpt, hl2⟩
      exact ⟨a :: l1, l2, by rw [heq]; rfl, hpt, hl2⟩
    | none =>
      rw [hr] at h
      split_ifs at h with hp
      injection h with h
      subst h
      exact ⟨[], rest, rfl, hp, findLastWith_eq_none p rest hr⟩

theorem segChainOk_pos_lt (sr : ℤ) :
    ∀ (l : List TempoSegment) (s : TempoSegment), segChainOk sr s l →
      ∀ t ∈ l, s.sample_position < t.sample_position
  | [], _, _, t, ht => absurd ht (by simp)
  | u :: rest, s, h, t, ht => by
    obtain ⟨hlt, _, hrest⟩ := h
    rcases List.mem_cons.mp ht with rfl | ht'
    · exact hlt
    · exact lt_trans hlt (segChainOk_pos_lt sr rest u hrest t ht')

theorem segChainOk_suffix (sr : ℤ) :
    ∀ (l1 : List TempoSegment) (s t : TempoSegment) (l2 : List TempoSegment),
      segChainOk sr s (l1 ++ t :: l2) → segChainOk sr t l2
  | [], _, _, _, h => h.2.2
  | a :: l1', _, t, l2, h => segChainOk_suffix sr l1' a t l2 h.2.2

theorem segChainOk_of_cons_decomp (sr : ℤ) (s0 t : TempoSegment)
    (rest l1 l2 : List TempoSegment) (hchain : segChainOk sr s0 rest)
    (hdec : s0 :: rest = l1 ++ t :: l2) : segChainOk sr t l2 := by
  cases l1 with
  | nil =>
    rw [List.nil_append] at hdec
    injection hdec with h1 h2
    subst h1
    subst h2
    exact hchain
  | cons a l1' =>
    rw [List.cons_append] at hdec
    injection hdec with h1 h2
    exact segChainOk_suffix sr l1' s0 t l2 (h2 ▸ hchain)

/-- C7 counterexample: for the constant-120-BPM map at 48 kHz with grid
offset +1 beat and b = 1/2, the round trip returns 1 (off by half a beat),
far outside one sample equivalent. -/
theorem tempo_roundtrip_counterexample :
    tmPos.beats_to_samples (1/2) = 0 ∧
      tmPos.samples_to_beats 0 = 1 ∧
      ¬(∃ s ∈ tmPos.segments,
          |tmPos.samples_to_beats (tmPos.beats_to_samples (1/2)) - 1/2| ≤
            s.local_bpm / (60 * (tmPos.sample_rate : ℚ))) := by
  have h1 : tmPos.beats_to_samples (1/2) = 0 := by
    norm_num [TempoMap.beats_to_samples, tmPos]
  have h2 : tmPos.samples_to_beats 0 = 1 := by
    norm_num [TempoMap.samples_to_beats, tmPos, find_segment_for_sample,
      findLastWith, max_def]
  refine ⟨h1, h2, ?_⟩
  rintro ⟨s, hs, hle⟩
  rw [h1, h2] at hle
  simp only [tmPos, List.mem_cons, List.not_mem_nil, or_false] at hs
  subst hs
  norm_num [tmPos, abs, max_def] at hle

/-- C7 (amended): for every TempoMap whose segments form a consistent chain
(first segment at sample 0 / beat 0, strictly increasing positions, beat
indices accumulated at each segment's positive local BPM) and every beat
position b at or above max(0, grid_offset_beats), the round trip
samples_to_beats (beats_to_samples b) lands within one sample equivalent —
local_bpm / (60 * sample_rate) — of b. Below a positive grid offset the
round trip can err by up to the offset. -/
theorem tempo_roundtrip (tm : TempoMap) (b : ℚ) (s0 : TempoSegment)
    (rest : List TempoSegment) (hsegs : tm.segments = s0 :: rest)
    (h0p : s0.sample_position = 0) (h0b : s0.beat_index = 0)
    (hchain : segChainOk tm.sample_rate s0 rest)
    (hbpm : ∀ s ∈ tm.segments, 0 < s.local_bpm)
    (hsr : 0 < tm.sample_rate) (hb : 0 ≤ b)
    (hbg : tm.grid_offset_beats ≤ b) :
    ∃ s ∈ tm.segments,
      |tm.samples_to_beats (tm.beats_to_samples b) - b| ≤
        s.local_bpm / (60 * (tm.sample_rate : ℚ)) := by
  have hsrQ : (0 : ℚ) < (tm.sample_rate : ℚ) := by exact_mod_cast hsr
  have hs0mem : s0 ∈ tm.segments := by
    rw [hsegs]
    exact List.mem_cons_self _ _
  have hbpm0 : 0 < s0.local_bpm := hbpm s0 hs0mem
  have hstb0 : tm.samples_to_beats 0 = max 0 tm.grid_offset_beats := by
    unfold TempoMap.samples_to_beats
    rw [if_neg (by omega)]
    have hall : ∀ s ∈ rest,
        (fun s : TempoSegment => decide (s.sample_position ≤ (0 : ℤ))) s
          = false := by
      intro s hs
      have := segChainOk_pos_lt tm.sample_rate rest s0 hchain s hs
      simp only [decide_eq_false_iff_not, not_le]
      omega
    have hfl := findLastWith_append
      (fun s : TempoSegment => decide (s.sample_position ≤ (0 : ℤ)))
      [] s0 rest (by simp [h0p]) hall
    rw [List.nil_append] at hfl
    have hfound : find_segment_for_sample tm.segments 0 = some s0 := by
      unfold find_segment_for_sample
      rw [hsegs]
      dsimp only
      rw [hfl]
      rfl
    rw [hfound]
    dsimp only
    rw [h0p, h0b]
    norm_num
  rcases eq_or_lt_of_le hb with hb0 | hbpos
  · -- b = 0
    have hbz : b = 0 := hb0.symm
    subst hbz
    have hbts : tm.beats_to_samples 0 = 0 := by
      unfold TempoMap.beats_to_samples
      rw [if_pos le_rfl]
    rw [hbts, hstb0]
    refine ⟨s0, hs0mem, ?_⟩
    rw [max_eq_left hbg]
    simp only [sub_zero, abs_zero]
    positivity
  · by_cases hadj : b - tm.grid_offset_beats ≤ 0
    · -- b = grid offset > 0
      have hge : tm.grid_offset_beats = b := le_antisymm hbg (by linarith)
      have hbts : tm.beats_to_samples b = 0 := by
        unfold TempoMap.beats_to_samples
        rw [if_neg (not_le.mpr hbpos), if_pos hadj]
      rw [hbts, hstb0, hge]
      refine ⟨s0, hs0mem, ?_⟩
      rw [max_eq_right (by linarith : (0 : ℚ) ≤ b)]
      simp only [sub_self, abs_zero]
      positivity
    · push_neg at hadj
      cases hfb : findLastWith
          (fun s : TempoSegment =>
            decide (s.beat_index ≤ b - tm.grid_offset_beats)) (s0 :: rest) with
      | none =>
        exfalso
        have := findLastWith_eq_none _ _ hfb s0 (List.mem_cons_self _ _)
        simp only [decide_eq_false_iff_not, not_le] at this
        rw [h0b] at this
        linarith
      | some t =>
        obtain ⟨l1, l2, hdec, hpt, hl2⟩ := findLastWith_split _ _ t hfb
        have htmem : t ∈ tm.segments := by
          rw [hsegs]
          exact findLastWith_mem _ _ t hfb
        have hbt : t.beat_index ≤ b - tm.grid_offset_beats :=
          of_decide_eq_true hpt
        have hbpmt : 0 < t.local_bpm := hbpm t htmem
        have hchain_t : segChainOk tm.sample_rate t l2 :=
          segChainOk_of_cons_decomp tm.sample_rate s0 t rest l1 l2 hchain hdec
        have htpos0 : 0 ≤ t.sample_position := by
          have ht' : t ∈ s0 :: rest := hsegs ▸ htmem
          rcases List.mem_cons.mp ht' with rfl | ht''
          · omega
          · have := segChainOk_pos_lt tm.sample_rate rest s0 hchain t ht''
            omega
        set x := (b - tm.grid_offset_beats - t.beat_index) * 60 / t.local_bpm
          * (tm.sample_rate : ℚ) with hx
        have hx0 : 0 ≤ x := by
          rw [hx]
          have h60 : 0 ≤ (b - tm.grid_offset_beats - t.beat_index) * 60 := by
            nlinarith
          exact mul_nonneg (div_nonneg h60 hbpmt.le) hsrQ.le
        have hfloor0 : 0 ≤ ⌊x⌋ := Int.floor_nonneg.mpr hx0
        have hfindb : find_segment_for_beat tm.segments
            (b - tm.grid_offset_beats) = some t := by
          unfold find_segment_for_beat
          rw [hsegs]
          dsimp only
          rw [hfb]
          rfl
        have hbts : tm.beats_to_samples b = t.sample_position + ⌊x⌋ := by
          unfold TempoMap.beats_to_samples
          rw [if_neg (not_le.mpr hbpos), if_neg (not_le.mpr hadj), hfindb]
          dsimp only
          rw [← hx]
          unfold pyInt
          rw [if_neg (not_lt.mpr hx0)]
        have hn0 : (0 : ℤ) ≤ t.sample_position + ⌊x⌋ := by omega
        have hxle : (⌊x⌋ : ℚ) ≤ x := Int.floor_le x
        have hxgt : x - 1 < (⌊x⌋ : ℚ) := by
          have := Int.lt_floor_add_one x
          linarith
        have hl2pos : ∀ s ∈ l2,
            t.sample_position + ⌊x⌋ < s.sample_position := by
          intro s hs
          cases l2 with
          | nil => simp at hs
          | cons u l2' =>
            obtain ⟨hlt_tu, hbeat_u, hchain_u⟩ := hchain_t
            have hbu : b - tm.grid_offset_beats < u.beat_index := by
              have hfu := hl2 u (List.mem_cons_self _ _)
              simpa only [decide_eq_false_iff_not, not_le] using hfu
            have hx_lt : x < (u.sample_position : ℚ) - t.sample_position := by
              have h1 : b - tm.grid_offset_beats - t.beat_index <
                  u.beat_index - t.beat_index := by linarith
              have h2 : u.beat_index - t.beat_index =
                  ((u.sample_position : ℚ) - t.sample_position) * t.local_bpm /
                    (60 * (tm.sample_rate : ℚ)) := by
                rw [hbeat_u]
                ring
              have h3 : x < (u.beat_index - t.beat_index) * 60 / t.local_bpm
                  * (tm.sample_rate : ℚ) := by
                rw [hx]
                have hmul : (b - tm.grid_offset_beats - t.beat_index) * 60 <
                    (u.beat_index - t.beat_index) * 60 := by linarith
                exact mul_lt_mul_of_pos_right
                  (div_lt_div_of_pos_right hmul hbpmt) hsrQ
              calc x < (u.beat_index - t.beat_index) * 60 / t.local_bpm
                    * (tm.sample_rate : ℚ) := h3
                _ = (u.sample_position : ℚ) - t.sample_position := by
                    rw [h2]
                    field_simp
                    ring
            have hnu : ((t.sample_position + ⌊x⌋ : ℤ) : ℚ) <
                (u.sample_position : ℚ) := by
              push_cast
              linarith
            have hnu' : t.sample_position + ⌊x⌋ < u.sample_position := by
              exact_mod_cast hnu
            rcases List.mem_cons.mp hs with rfl | hs'
            · exact hnu'
            · have := segChainOk_pos_lt tm.sample_rate l2' u hchain_u s hs'
              omega
        have hfinds : find_segment_for_sample tm.segments
            (t.sample_position + ⌊x⌋) = some t := by
          unfold find_segment_for_sample
          rw [hsegs]
          dsimp only
          rw [hdec]
          rw [findLastWith_append
            (fun s : TempoSegment =>
              decide (s.sample_position ≤ t.sample_position + ⌊x⌋))
            l1 t l2 (by simp; omega)
            (fun s hs => by
              simp only [decide_eq_false_iff_not, not_le]
              exact hl2pos s hs)]
          rfl
        have hstbn : tm.samples_to_beats (t.sample_position + ⌊x⌋) =
            max 0 (t.beat_index +
              (((t.sample_position + ⌊x⌋ : ℤ) : ℚ) - (t.sample_position : ℚ))
                / (tm.sample_rate : ℚ) * t.local_bpm / 60 +
              tm.grid_offset_beats) := by
          unfold TempoMap.samples_to_beats
          rw [if_neg (not_lt.mpr hn0), hfinds]
        rw [hbts, hstbn]
        have hcast : (((t.sample_position + ⌊x⌋ : ℤ) : ℚ) -
            (t.sample_position : ℚ)) = (⌊x⌋ : ℚ) := by
          push_cast
          ring
        rw [hcast]
        have hxval : x * (t.local_bpm / (60 * (tm.sample_rate : ℚ))) =
            b - tm.grid_offset_beats - t.beat_index := by
          rw [hx]
          field_simp
          ring
        have hinner : t.beat_index +
            (⌊x⌋ : ℚ) / (tm.sample_rate : ℚ) * t.local_bpm / 60 +
            tm.grid_offset_beats =
            b - (x - ⌊x⌋) * (t.local_bpm / (60 * (tm.sample_rate : ℚ))) := by
          have hconv : (⌊x⌋ : ℚ) / (tm.sample_rate : ℚ) * t.local_bpm / 60 =
              (⌊x⌋ : ℚ) * (t.local_bpm / (60 * (tm.sample_rate : ℚ))) := by
            ring
          rw [hconv, sub_mul, hxval]
          ring
        rw [hinner]
        refine ⟨t, htmem, ?_⟩
        have hT0 : 0 < t.local_bpm / (60 * (tm.sample_rate : ℚ)) := by
          positivity
        have hfr0 : 0 ≤ x - (⌊x⌋ : ℚ) := by linarith
        have hfr1 : x - (⌊x⌋ : ℚ) < 1 := by linarith
        have hfrT : (x - (⌊x⌋ : ℚ)) *
            (t.local_bpm / (60 * (tm.sample_rate : ℚ))) ≤
            t.local_bpm / (60 * (tm.sample_rate : ℚ)) := by
          calc (x - (⌊x⌋ : ℚ)) * (t.local_bpm / (60 * (tm.sample_rate : ℚ)))
              ≤ 1 * (t.local_bpm / (60 * (tm.sample_rate : ℚ))) :=
                mul_le_mul_of_nonneg_right hfr1.le hT0.le
            _ = t.local_bpm / (60 * (tm.sample_rate : ℚ)) := one_mul _
        have hfrT0 : 0 ≤ (x - (⌊x⌋ : ℚ)) *
            (t.local_bpm / (60 * (tm.sample_rate : ℚ))) :=
          mul_nonneg hfr0 hT0.le
        rcases le_or_lt 0 (b - (x - (⌊x⌋ : ℚ)) *
            (t.local_bpm / (60 * (tm.sample_rate : ℚ)))) with hge | hlt
        · rw [max_eq_right hge]
          have heq : b - (x - (⌊x⌋ : ℚ)) *
              (t.local_bpm / (60 * (tm.sample_rate : ℚ))) - b =
              -((x - (⌊x⌋ : ℚ)) *
                (t.local_bpm / (60 * (tm.sample_rate : ℚ)))) := by
            ring
          rw [heq, abs_neg, abs_of_nonneg hfrT0]
          exact hfrT
        · rw [max_eq_left hlt.le]
          rw [abs_of_nonpos (by linarith)]
          linarith

/-- C7 witness: the consistent two-segment variable-tempo map at b = 3. -/
theorem tempo_roundtrip_witness :
    (tmVar.segments =
        (⟨0, 0, 120, 1⟩ : TempoSegment) :: [⟨48000, 2, 150, 1⟩] ∧
      segChainOk tmVar.sample_rate ⟨0, 0, 120, 1⟩ [⟨48000, 2, 150, 1⟩] ∧
      (∀ s ∈ tmVar.segments, 0 < s.local_bpm) ∧
      (0 : ℤ) < tmVar.sample_rate ∧ (0 : ℚ) ≤ 3 ∧
      tmVar.grid_offset_beats ≤ 3) ∧
    ∃ s ∈ tmVar.segments,
      |tmVar.samples_to_beats (tmVar.beats_to_samples 3) - 3| ≤
        s.local_bpm / (60 * (tmVar.sample_rate : ℚ)) :=
  ⟨⟨rfl,
    ⟨by norm_num [tmVar], by norm_num [tmVar], trivial⟩,
    by
      intro s hs
      simp only [tmVar, List.mem_cons, List.not_mem_nil, or_false] at hs
      rcases hs with rfl | rfl <;> norm_num,
    by norm_num [tmVar], by norm_num, by norm_num [tmVar]⟩,
   tempo_roundtrip tmVar 3 ⟨0, 0, 120, 1⟩ [⟨48000, 2, 150, 1⟩] rfl rfl rfl
     ⟨by norm_num [tmVar], by norm_num [tmVar], trivial⟩
     (by
       intro s hs
       simp only [tmVar, List.mem_cons, List.not_mem_nil, or_false] at hs
       rcases hs with rfl | rfl <;> norm_num)
     (by norm_num [tmVar]) (by norm_num) (by norm_num [tmVar])⟩

end DJLite
